import Mathlib

/-!
The tool top-vulnerable-domains: domain splitting and the vulnerability scan.

A shallow embedding of `src/top-vulnerable-domains/main.go`.

Modelling conventions.

* A Go `string` is modelled as the list of its code points (`Str`).  The
  separators and cut sets used by the program (`.`, `, `, `[ `, ` ]\n`, the
  single quote and the newline) are ASCII, so on well-formed UTF-8 text the
  byte-level Go library operations agree with the code-point-level ones
  below.
* The Go standard-library functions used by the program (`strings.Split`,
  `strings.Join`, `strings.TrimPrefix`, `strings.TrimSuffix`, `strings.Trim`,
  `bufio.Reader.ReadString`) are modelled after their documented behaviour.
* `publicsuffix.PublicSuffix` is an external collaborator; its first return
  value is a parameter `psl : Str → Str` of the embedding (the second return
  value is discarded by the program).
* A run-time panic (slice or index out of range) is modelled by `none`.
-/

namespace PunycodeAttack

/-- A Go string, as the list of its code points. -/
abbrev Str := List Char

/-! ## Go standard library -/

/-- Go `strings.HasPrefix`. -/
def HasPrefix (s pre : Str) : Bool := pre.isPrefixOf s

/-- Go `strings.HasSuffix`. -/
def HasSuffix (s suffix : Str) : Bool := suffix.isSuffixOf s

/-- Go `strings.TrimPrefix`: `s` without the leading `pre`, or `s` itself when
`s` does not start with `pre`. -/
def TrimPrefix (s pre : Str) : Str :=
  if HasPrefix s pre then s.drop pre.length else s

/-- Go `strings.TrimSuffix`: `s` without the trailing `suffix`, or `s` itself
when `s` does not end with `suffix`. -/
def TrimSuffix (s suffix : Str) : Str :=
  if HasSuffix s suffix then s.take (s.length - suffix.length) else s

/-- Go `strings.Trim`: `s` with all leading and trailing code points contained
in `cutset` removed. -/
def Trim (s cutset : Str) : Str :=
  ((s.dropWhile (fun c => decide (c ∈ cutset))).reverse.dropWhile
    (fun c => decide (c ∈ cutset))).reverse

/-- Go `strings.Index`: the position of the first occurrence of `sep` in `s`,
`none` (Go: `-1`) when there is none. -/
def Index : Str → Str → Option Nat
  | [], sep => if sep.isPrefixOf [] then some 0 else none
  | c :: s, sep =>
    if sep.isPrefixOf (c :: s) then some 0 else (Index s sep).map (· + 1)

/-- The loop of Go `strings.genSplit` for a non-empty separator: at most `n`
times, cut `s` at the first occurrence of `sep`; the rest is the last piece. -/
def genSplit (sep : Str) : Nat → Str → List Str
  | 0, s => [s]
  | n + 1, s =>
    match Index s sep with
    | none => [s]
    | some m => s.take m :: genSplit sep n (s.drop (m + sep.length))

/-- Go `strings.Split(s, sep)` for a non-empty separator `sep`.  Go bounds the
number of cuts by `Count(s, sep)`, which is at most `len(s)`; the loop stops
by itself when no occurrence is left. -/
def Split (s sep : Str) : List Str := genSplit sep s.length s

/-- Go `strings.Join`. -/
def Join (elems : List Str) (sep : Str) : Str := sep.intercalate elems

/-- Go slice expression `a[:hi]`; `none` models the out-of-range panic. -/
def sliceTo (a : List Str) (hi : Int) : Option (List Str) :=
  if 0 ≤ hi ∧ hi ≤ (a.length : Int) then some (a.take hi.toNat) else none

/-- Go index expression `a[i]`; `none` models the out-of-range panic. -/
def index (a : List Str) (i : Int) : Option Str :=
  if 0 ≤ i ∧ i < (a.length : Int) then a[i.toNat]? else none

/-- Go `bufio.Reader.ReadString(delim)` on a reader whose unread content is
`br`: the text up to and including the first `delim`, and the reader after
it; `none` when the end of the input comes first (`err == io.EOF`). -/
def ReadString : Str → Char → Option (Str × Str)
  | [], _ => none
  | c :: br, delim =>
    if c = delim then some ([c], br)
    else (ReadString br delim).map (fun r => (c :: r.1, r.2))

/-! ## The program -/

/-- The map `alphabet` (main.go:25-39): easily exploitable characters. -/
def alphabet : List Char :=
  ['a', 'p', 'l', 'e', 'c', 'x', 's', 'y', 'j', 'i', 'h', 'o', '-']

/-- The string `"."`. -/
def dot : Str := ['.']

/-- Function `splitDomain` (main.go:41-71).  The named results start empty;
`psl` is the first result of `publicsuffix.PublicSuffix`. -/
def splitDomain (psl : Str → Str) (domainName : Str) : Option (Str × Str × Str) :=
  if domainName = [] then some ([], [], [])
  else
    let publicSuffix := psl domainName
    if publicSuffix = domainName then
      let segments := Split domainName dot
      let l : Int := segments.length
      if l = 1 then
        (index segments 0).map (fun domain => ([], domain, []))
      else if l = 2 then
        (index segments 0).bind (fun domain =>
          (index segments 1).map (fun tld => ([], domain, tld)))
      else
        (sliceTo segments (l - 2)).bind (fun pre =>
          (index segments (l - 2)).bind (fun domain =>
            (index segments (l - 1)).map (fun tld => (Join pre dot, domain, tld))))
    else
      let tld : Str := if publicSuffix ≠ [] then dot ++ publicSuffix else []
      let segments := Split (TrimSuffix domainName tld) dot
      let l : Int := segments.length
      if l = 1 then
        (index segments 0).map (fun domain => ([], domain, tld))
      else
        (sliceTo segments (l - 1)).bind (fun pre =>
          (index segments (l - 1)).map (fun domain => (Join pre dot, domain, tld)))

/-- The loop `for _, ch := range domain` of `main` (main.go:134-138): `false`
as soon as a character is not a key of `alphabet` (`continue rdloop`), `true`
when the loop runs to its end. -/
def isVulnerable : Str → Bool
  | [] => true
  | ch :: rest => if ch ∈ alphabet then isVulnerable rest else false

/-- The loop `rdloop` of `main` (main.go:111-141) on a reader whose unread
content is `br`, with `list` the hosts collected so far.  The first argument
bounds the number of iterations. -/
def rdloop (psl : Str → Str) : Nat → Str → List Str → Option (List Str)
  | 0, _, _ => none
  | fuel + 1, br, list =>
    match ReadString br '\n' with
    | none => some list
    | some (line, br) =>
      let line := TrimPrefix line ['[', ' ']
      let line := TrimSuffix line [' ', ']', '\n']
      let records := Split line [',', ' ']
      if records.length ≠ 2 then rdloop psl fuel br list
      else
        match index records 1 with
        | none => none
        | some r =>
          let host := Trim r [Char.ofNat 39]
          match splitDomain psl host with
          | none => none
          | some (_, domain, _) =>
            if isVulnerable domain then rdloop psl fuel br (list ++ [host])
            else rdloop psl fuel br list

/-- The scan of `main` over the content of the input file: every iteration
that does not end the loop consumes at least one character, so
`content.length + 1` iterations are enough. -/
def scan (psl : Str → Str) (content : Str) : Option (List Str) :=
  rdloop psl (content.length + 1) content []

/-! ## Notions of the specification -/

/-- Reassembly of a split result, in the words of the specification: with `t`
the tld without one leading `"."` (if present), the non-empty strings among
`(subdomain, domain, t)` joined with `"."`. -/
def reassemble (r : Str × Str × Str) : Str :=
  Join ([r.1, r.2.1, TrimPrefix r.2.2 dot].filter (fun x => decide (x ≠ []))) dot

/-- The answer `p` of the lookup is a whole-label suffix of the hostname `h`:
it is `h` itself, or `h` ends with `"." ++ p`. -/
def WholeLabelSuffix (p h : Str) : Prop := p = h ∨ ('.' :: p) <:+ h

instance (p h : Str) : Decidable (WholeLabelSuffix p h) := by
  unfold WholeLabelSuffix; infer_instance

/-- A newline-terminated input line: it ends with a newline and has no other
newline. -/
def IsLine (l : Str) : Prop := l.getLast? = some '\n' ∧ '\n' ∉ l.dropLast

instance (l : Str) : Decidable (IsLine l) := by
  unfold IsLine; infer_instance

/-- The fields of a line, in the words of the specification: the line without
a leading `"[ "` and a trailing `" ]\n"`, split on `", "`. -/
def fields (line : Str) : List Str :=
  Split (TrimSuffix (TrimPrefix line ['[', ' ']) [' ', ']', '\n']) [',', ' ']

/-- The host extracted from a line that parses into two fields: the second
field without its surrounding single quotes. -/
def extractHost (line : Str) : Option Str :=
  match fields line with
  | [_, r] => some (Trim r [Char.ofNat 39])
  | _ => none

/-- The domain label that `splitDomain` returns for `host` passes the
alphabet test. -/
def qualifies (psl : Str → Str) (host : Str) : Bool :=
  match splitDomain psl host with
  | some (_, domain, _) => isVulnerable domain
  | none => false

/-- The list the specification expects of a scan over `lines`: the hosts of
the lines that parse into two fields and whose domain label passes the
alphabet test, in input order, duplicates kept. -/
def vulnerableHosts (psl : Str → Str) (lines : List Str) : List Str :=
  (lines.filterMap extractHost).filter (qualifies psl)

/-- The single quote. -/
def quote : Char := Char.ofNat 39

/-- The record line of the index `i` and the hostname `h`, in the words of the
specification: `"[ " ++ i ++ ", '" ++ h ++ "' ]\n"`. -/
def recordLine (i h : Str) : Str :=
  ['[', ' '] ++ i ++ [',', ' ', quote] ++ h ++ [quote, ' ', ']', '\n']

/-! ## Lemmas on the library model -/

theorem isPrefixOf_single (c : Char) (s : Str) :
    List.isPrefixOf [c] s = match s with
      | [] => false
      | d :: _ => c == d := by
  cases s <;> simp [List.isPrefixOf]

theorem Index_single_none (c : Char) (s : Str) (h : c ∉ s) : Index s [c] = none := by
  induction s with
  | nil => simp [Index, List.isPrefixOf]
  | cons d s ih =>
    have hd : c ≠ d := fun e => h (e ▸ List.mem_cons_self _ _)
    have hs : c ∉ s := fun m => h (List.mem_cons_of_mem _ m)
    simp [Index, List.isPrefixOf, hd, ih hs]

theorem Index_single_first (c : Char) (a b : Str) (h : c ∉ a) :
    Index (a ++ c :: b) [c] = some a.length := by
  induction a with
  | nil => simp [Index, List.isPrefixOf]
  | cons d a ih =>
    have hd : c ≠ d := fun e => h (e ▸ List.mem_cons_self _ _)
    have hs : c ∉ a := fun m => h (List.mem_cons_of_mem _ m)
    simp [Index, List.isPrefixOf, hd, ih hs]

theorem not_sep_of_not_mem (c : Char) (s : Str) (h : c ∉ s) :
    ∀ x ∈ s, ¬ ((fun y => y == c) x = true) := by
  intro x hx hxc
  have e : x = c := by simpa using hxc
  exact h (e ▸ hx)

theorem genSplit_single (c : Char) :
    ∀ (n : Nat) (s : Str), s.length ≤ n → genSplit [c] n s = s.splitOn c := by
  intro n
  induction n with
  | zero =>
    intro s hs
    have : s = [] := List.length_eq_zero.mp (Nat.le_zero.mp hs)
    subst this
    rfl
  | succ n ih =>
    intro s hs
    by_cases hc : c ∈ s
    · obtain ⟨a, b, rfl, ha⟩ := List.eq_append_cons_of_mem hc
      have hlen : b.length ≤ n := by
        simp only [List.length_append, List.length_cons] at hs
        omega
      have hsplit : (a ++ c :: b).splitOn c = a :: b.splitOn c := by
        unfold List.splitOn
        exact List.splitOnP_first _ _ (not_sep_of_not_mem c a ha) c
          (beq_self_eq_true c) b
      rw [hsplit, genSplit, Index_single_first c a b ha]
      simp [ih b hlen]
    · have hsplit : s.splitOn c = [s] := by
        unfold List.splitOn
        exact List.splitOnP_eq_single _ _ (not_sep_of_not_mem c s hc)
      rw [hsplit, genSplit, Index_single_none c s hc]

theorem Split_dot (s : Str) : Split s dot = s.splitOn '.' :=
  genSplit_single '.' s.length s (Nat.le_refl _)

theorem Split_ne_nil (s : Str) : Split s dot ≠ [] := by
  rw [Split_dot]; exact List.splitOnP_ne_nil _ _

theorem Join_Split (s : Str) : Join (Split s dot) dot = s := by
  rw [Split_dot]; exact List.intercalate_splitOn s '.'

theorem splitOn_not_mem (c : Char) :
    ∀ (s : Str) (l : Str), l ∈ s.splitOn c → c ∉ l := by
  intro s
  induction s with
  | nil => intro l hl; simp at hl; subst hl; simp
  | cons d s ih =>
    intro l hl
    unfold List.splitOn at hl ih
    rw [List.splitOnP_cons] at hl
    split at hl
    · rename_i hd
      rcases List.mem_cons.mp hl with rfl | hl
      · simp
      · exact ih l hl
    · rename_i hd
      cases hsp : List.splitOnP (fun x => x == c) s with
      | nil => exact absurd hsp (List.splitOnP_ne_nil _ _)
      | cons x xs =>
        rw [hsp] at hl ih
        simp only [List.modifyHead_cons, List.mem_cons] at hl
        rcases hl with rfl | hl
        · intro hmem
          rcases List.mem_cons.mp hmem with e | hmem
          · exact hd (by simp [e])
          · exact ih x (List.mem_cons_self _ _) hmem
        · exact ih l (List.mem_cons_of_mem _ hl)

theorem Split_not_mem (s l : Str) (h : l ∈ Split s dot) : '.' ∉ l := by
  rw [Split_dot] at h; exact splitOn_not_mem '.' s l h

theorem Split_no_dot (s : Str) (h : '.' ∉ s) : Split s dot = [s] := by
  rw [Split_dot]
  unfold List.splitOn
  exact List.splitOnP_eq_single _ _ (not_sep_of_not_mem '.' s h)

theorem Join_append_single (xs : List Str) (d : Str) (h : xs ≠ []) :
    Join (xs ++ [d]) dot = Join xs dot ++ '.' :: d := by
  induction xs with
  | nil => exact absurd rfl h
  | cons x xs ih =>
    cases xs with
    | nil => simp [Join, dot, List.intercalate]
    | cons y ys =>
      have := ih (List.cons_ne_nil _ _)
      simp only [Join, dot, List.intercalate, List.cons_append, List.intersperse_cons_cons,
        List.flatten_cons, List.append_assoc] at this ⊢
      rw [this]

theorem Join_append (xs ys : List Str) (hx : xs ≠ []) (hy : ys ≠ []) :
    Join (xs ++ ys) dot = Join xs dot ++ '.' :: Join ys dot := by
  induction xs with
  | nil => exact absurd rfl hx
  | cons x xs ih =>
    cases xs with
    | nil =>
      cases ys with
      | nil => exact absurd rfl hy
      | cons y ys => simp [Join, dot, List.intercalate]
    | cons z zs =>
      have := ih (List.cons_ne_nil _ _)
      simp only [Join, dot, List.intercalate, List.cons_append, List.intersperse_cons_cons,
        List.flatten_cons, List.append_assoc] at this ⊢
      rw [this]

theorem Split_append_dot (x p : Str) :
    Split (x ++ '.' :: p) dot = Split x dot ++ Split p dot := by
  have h := Join_append (Split x dot) (Split p dot) (Split_ne_nil x) (Split_ne_nil p)
  rw [Join_Split, Join_Split] at h
  have hne : Split x dot ++ Split p dot ≠ [] :=
    fun e => Split_ne_nil x (List.append_eq_nil.mp e).1
  have hmem : ∀ l ∈ Split x dot ++ Split p dot, '.' ∉ l := by
    intro l hl
    rcases List.mem_append.mp hl with hl | hl
    · exact Split_not_mem x l hl
    · exact Split_not_mem p l hl
  rw [← h, Split_dot (Join _ _)]
  exact List.splitOn_intercalate _ '.' hmem hne

/-! ## Lemmas on `splitDomain` -/

theorem sliceTo_natCast (a : List Str) (k : Nat) (h : k ≤ a.length) :
    sliceTo a (k : Int) = some (a.take k) := by
  simp [sliceTo, h]

theorem index_natCast (a : List Str) (k : Nat) (h : k < a.length) :
    index a (k : Int) = some (a.get ⟨k, h⟩) := by
  simp [index, h]

/-- The tail of `splitDomain` (main.go:62-70) when the trimmed name splits
into `init ++ [last]`. -/
theorem splitDomain_tail (psl : Str → Str) (h : Str) (init : List Str) (last : Str)
    (hne : h ≠ []) (hps : psl h ≠ h)
    (hseg : Split (TrimSuffix h (if psl h ≠ [] then dot ++ psl h else [])) dot
      = init ++ [last]) :
    splitDomain psl h
      = some (Join init dot, last, if psl h ≠ [] then dot ++ psl h else []) := by
  unfold splitDomain
  simp only [if_neg hne, if_neg hps]
  rw [hseg]
  cases init with
  | nil => simp [index, Join, List.intercalate]
  | cons x xs =>
    have hl : (((x :: xs ++ [last]).length : Nat) : Int) - 1 = ((xs.length + 1 : Nat) : Int) := by
      simp
    have hl1 : ¬ ((((x :: xs ++ [last]).length : Nat) : Int) = 1) := by
      simp; omega
    rw [if_neg hl1, hl, sliceTo_natCast _ _ (by simp), index_natCast _ _ (by simp)]
    simp

/-- Case A of `splitDomain` (main.go:45-58), one label. -/
theorem splitDomain_self_one (psl : Str → Str) (h l1 : Str)
    (hne : h ≠ []) (hps : psl h = h) (hseg : Split h dot = [l1]) :
    splitDomain psl h = some ([], l1, []) := by
  unfold splitDomain
  simp only [if_neg hne, if_pos hps]
  rw [hseg]
  simp [index]

/-- Case A of `splitDomain` (main.go:45-58), two labels. -/
theorem splitDomain_self_two (psl : Str → Str) (h l1 l2 : Str)
    (hne : h ≠ []) (hps : psl h = h) (hseg : Split h dot = [l1, l2]) :
    splitDomain psl h = some ([], l1, l2) := by
  unfold splitDomain
  simp only [if_neg hne, if_pos hps]
  rw [hseg]
  simp [index]

/-- Case A of `splitDomain` (main.go:45-58), three labels or more. -/
theorem splitDomain_self_many (psl : Str → Str) (h : Str) (pre : List Str) (a b : Str)
    (hne : h ≠ []) (hps : psl h = h) (hpre : pre ≠ [])
    (hseg : Split h dot = pre ++ [a, b]) :
    splitDomain psl h = some (Join pre dot, a, b) := by
  unfold splitDomain
  simp only [if_neg hne, if_pos hps]
  rw [hseg]
  have hpos : 0 < pre.length := List.length_pos.mpr hpre
  have hlen : (pre ++ [a, b]).length = pre.length + 2 := by simp
  have hl1 : ¬ ((((pre ++ [a, b]).length : Nat) : Int) = 1) := by
    rw [hlen]; omega
  have hl2 : ¬ ((((pre ++ [a, b]).length : Nat) : Int) = 2) := by
    rw [hlen]; omega
  have e2 : (((pre ++ [a, b]).length : Nat) : Int) - 2 = ((pre.length : Nat) : Int) := by
    rw [hlen]; omega
  have e1 : (((pre ++ [a, b]).length : Nat) : Int) - 1 = ((pre.length + 1 : Nat) : Int) := by
    rw [hlen]; omega
  rw [if_neg hl1, if_neg hl2, e2, e1, sliceTo_natCast _ _ (by simp),
    index_natCast _ _ (by simp), index_natCast _ _ (by simp)]
  simp [List.getElem_append_right]

theorem TrimSuffix_append (x suffix : Str) : TrimSuffix (x ++ suffix) suffix = x := by
  have hs : HasSuffix (x ++ suffix) suffix = true := by
    simp [HasSuffix]
  simp [TrimSuffix, hs]

theorem TrimSuffix_nil (s : Str) : TrimSuffix s [] = s := by
  simpa using TrimSuffix_append s []

theorem Split_eq_concat (s : Str) : ∃ init last, Split s dot = init ++ [last] :=
  ⟨(Split s dot).dropLast, (Split s dot).getLast (Split_ne_nil s),
    (List.dropLast_append_getLast (Split_ne_nil s)).symm⟩

theorem list_shape (xs : List Str) (h : xs ≠ []) :
    (∃ a, xs = [a]) ∨ (∃ a b, xs = [a, b]) ∨
      ∃ pre a b, pre ≠ [] ∧ xs = pre ++ [a, b] := by
  induction xs with
  | nil => exact absurd rfl h
  | cons x xs ih =>
    cases xs with
    | nil => exact Or.inl ⟨x, rfl⟩
    | cons y ys =>
      rcases ih (List.cons_ne_nil _ _) with ⟨a, e⟩ | ⟨a, b, e⟩ | ⟨pre, a, b, _, e⟩
      · exact Or.inr (Or.inl ⟨x, a, by rw [e]⟩)
      · exact Or.inr (Or.inr ⟨[x], a, b, List.cons_ne_nil _ _, by rw [e]; rfl⟩)
      · exact Or.inr (Or.inr ⟨x :: pre, a, b, List.cons_ne_nil _ _, by rw [e]; rfl⟩)

/-- The function `splitDomain` never panics. -/
theorem splitDomain_some (psl : Str → Str) (h : Str) :
    ∃ t, splitDomain psl h = some t := by
  by_cases hne : h = []
  · exact ⟨([], [], []), by simp [splitDomain, hne]⟩
  · by_cases hps : psl h = h
    · rcases list_shape (Split h dot) (Split_ne_nil h) with
        ⟨a, e⟩ | ⟨a, b, e⟩ | ⟨pre, a, b, hpre, e⟩
      · exact ⟨_, splitDomain_self_one psl h a hne hps e⟩
      · exact ⟨_, splitDomain_self_two psl h a b hne hps e⟩
      · exact ⟨_, splitDomain_self_many psl h pre a b hne hps hpre e⟩
    · obtain ⟨init, last, e⟩ :=
        Split_eq_concat (TrimSuffix h (if psl h ≠ [] then dot ++ psl h else []))
      exact ⟨_, splitDomain_tail psl h init last hne hps e⟩

theorem Join_nil : Join [] dot = [] := rfl

theorem Join_single (a : Str) : Join [a] dot = a := by
  simp [Join, List.intercalate]

theorem Join_ne_nil (xs : List Str) (hx : xs ≠ []) (h : ∀ l ∈ xs, l ≠ []) :
    Join xs dot ≠ [] := by
  cases xs with
  | nil => exact absurd rfl hx
  | cons x rest =>
    have hx0 : x ≠ [] := h x (List.mem_cons_self _ _)
    cases rest with
    | nil => rw [Join_single]; exact hx0
    | cons y ys =>
      have e := Join_append [x] (y :: ys) (List.cons_ne_nil _ _) (List.cons_ne_nil _ _)
      rw [List.singleton_append] at e
      rw [e, Join_single]
      exact fun c => hx0 (List.append_eq_nil.mp c).1

theorem TrimPrefix_dot_cons (p : Str) : TrimPrefix ('.' :: p) dot = p := by
  simp [TrimPrefix, HasPrefix, dot, List.isPrefixOf]

theorem TrimPrefix_dot_of_not_mem (b : Str) (h : '.' ∉ b) : TrimPrefix b dot = b := by
  cases b with
  | nil => simp [TrimPrefix, HasPrefix, dot, List.isPrefixOf]
  | cons c b =>
    have hc : ¬ ('.' = c) := fun e => h (e ▸ List.mem_cons_self _ _)
    simp [TrimPrefix, HasPrefix, dot, List.isPrefixOf, hc]

/-- Reassembly of `(Join init, last, t)` when the labels are non-empty. -/
theorem reassemble_labels (init : List Str) (last t u : Str)
    (hinit : ∀ l ∈ init, l ≠ []) (hlast : last ≠ []) (ht : TrimPrefix t dot = u) :
    reassemble (Join init dot, last, t)
      = if u = [] then Join (init ++ [last]) dot
        else Join (init ++ [last]) dot ++ '.' :: u := by
  unfold reassemble
  simp only [ht]
  by_cases hi : init = []
  · subst hi
    by_cases hu : u = []
    · simp [hu, hlast, Join_nil, Join_single]
    · have e := Join_append [last] [u] (List.cons_ne_nil _ _) (List.cons_ne_nil _ _)
      simp only [Join_single, List.singleton_append] at e
      simp [hu, hlast, Join_nil, Join_single, e]
  · have hj : Join init dot ≠ [] := Join_ne_nil init hi hinit
    by_cases hu : u = []
    · have e := Join_append [Join init dot] [last] (List.cons_ne_nil _ _) (List.cons_ne_nil _ _)
      simp only [Join_single, List.singleton_append] at e
      simp [hu, hlast, hj, e, Join_append_single init last hi]
    · have e1 := Join_append [last] [u] (List.cons_ne_nil _ _) (List.cons_ne_nil _ _)
      have e2 := Join_append [Join init dot] [last, u] (List.cons_ne_nil _ _)
        (List.cons_ne_nil _ _)
      simp only [Join_single, List.singleton_append] at e1 e2
      simp [hu, hlast, hj, e1, e2, Join_append_single init last hi]

/-! ## Lemmas on the scan loop -/

theorem IsLine_eq (l : Str) (h : IsLine l) :
    ∃ body, l = body ++ ['\n'] ∧ '\n' ∉ body :=
  ⟨l.dropLast, (List.dropLast_append_getLast? _ h.1).symm, h.2⟩

theorem ReadString_line (body rest : Str) (h : '\n' ∉ body) :
    ReadString (body ++ '\n' :: rest) '\n' = some (body ++ ['\n'], rest) := by
  induction body with
  | nil => simp [ReadString]
  | cons c body ih =>
    have hc : ¬ (c = '\n') := fun e => h (e ▸ List.mem_cons_self _ _)
    have hb : '\n' ∉ body := fun m => h (List.mem_cons_of_mem _ m)
    simp [ReadString, hc, ih hb]

/-- One iteration of `rdloop` on a line that `ReadString` delivers. -/
theorem rdloop_step (psl : Str → Str) (fuel : Nat) (br line rest : Str) (list : List Str)
    (hr : ReadString br '\n' = some (line, rest)) :
    rdloop psl (fuel + 1) br list
      = rdloop psl fuel rest (list ++ vulnerableHosts psl [line]) := by
  rw [rdloop, hr]
  simp only [vulnerableHosts, List.filterMap_cons, List.filterMap_nil, extractHost]
  change (if (fields line).length ≠ 2 then _ else _) = _
  have hfold : Split (TrimSuffix (TrimPrefix line ['[', ' ']) [' ', ']', '\n']) [',', ' ']
      = fields line := rfl
  simp only [hfold]
  rcases hf : fields line with _ | ⟨r0, _ | ⟨r1, _ | ⟨r2, rs⟩⟩⟩
  · simp
  · simp
  · obtain ⟨⟨sub, dom, tld⟩, hsd⟩ := splitDomain_some psl (Trim r1 [Char.ofNat 39])
    by_cases hv : isVulnerable dom = true
    · simp [index, hsd, qualifies, hv]
    · simp [index, hsd, qualifies, hv]
  · simp

theorem vulnerableHosts_append (psl : Str → Str) (xs ys : List Str) :
    vulnerableHosts psl (xs ++ ys) = vulnerableHosts psl xs ++ vulnerableHosts psl ys := by
  simp only [vulnerableHosts, List.filterMap_append, List.filter_append]

theorem rdloop_lines (psl : Str → Str) :
    ∀ (lines : List Str), (∀ l ∈ lines, IsLine l) →
      ∀ (fuel : Nat) (list : List Str), lines.length < fuel →
        rdloop psl fuel lines.flatten list = some (list ++ vulnerableHosts psl lines) := by
  intro lines
  induction lines with
  | nil =>
    intro _ fuel list hfuel
    obtain ⟨n, rfl⟩ : ∃ n, fuel = n + 1 := ⟨fuel - 1, by simp at hfuel; omega⟩
    simp [rdloop, ReadString, vulnerableHosts]
  | cons l ls ih =>
    intro hl fuel list hfuel
    obtain ⟨n, rfl⟩ : ∃ n, fuel = n + 1 := ⟨fuel - 1, by simp at hfuel; omega⟩
    obtain ⟨body, rfl, hbody⟩ := IsLine_eq l (hl l (List.mem_cons_self _ _))
    have hr : ReadString ((body ++ ['\n']) :: ls).flatten '\n'
        = some (body ++ ['\n'], ls.flatten) := by
      have := ReadString_line body ls.flatten hbody
      simpa using this
    rw [rdloop_step psl n _ _ _ list hr,
      ih (fun x hx => hl x (List.mem_cons_of_mem _ hx)) n _ (by simpa using hfuel),
      List.append_assoc, ← vulnerableHosts_append]
    rfl

theorem length_le_flatten (lines : List Str) (h : ∀ l ∈ lines, IsLine l) :
    lines.length ≤ lines.flatten.length := by
  induction lines with
  | nil => simp
  | cons l ls ih =>
    obtain ⟨body, rfl, _⟩ := IsLine_eq l (h l (List.mem_cons_self _ _))
    have := ih (fun x hx => h x (List.mem_cons_of_mem _ hx))
    simp only [List.length_cons, List.flatten_cons, List.length_append, List.length_nil]
    omega

/-- The scan of newline-terminated lines yields the expected list. -/
theorem scan_lines (psl : Str → Str) (lines : List Str) (h : ∀ l ∈ lines, IsLine l) :
    scan psl lines.flatten = some (vulnerableHosts psl lines) := by
  have := rdloop_lines psl lines h (lines.flatten.length + 1) []
    (Nat.lt_succ_of_le (length_le_flatten lines h))
  simpa [scan] using this

theorem extractHost_of_length_ne (m : Str) (h : (fields m).length ≠ 2) :
    extractHost m = none := by
  unfold extractHost
  rcases hf : fields m with _ | ⟨r0, _ | ⟨r1, _ | ⟨r2, rs⟩⟩⟩
  · rfl
  · rfl
  · rw [hf] at h; exact absurd rfl h
  · rfl

theorem count_vulnerableHosts (psl : Str → Str) (host : Str) (lines : List Str) :
    (vulnerableHosts psl lines).count host
      = (lines.filter
          (fun l => decide (extractHost l = some host) && qualifies psl host)).length := by
  induction lines with
  | nil => rfl
  | cons l ls ih =>
    have e := vulnerableHosts_append psl [l] ls
    rw [List.singleton_append] at e
    rw [e, List.count_append, ih, List.filter_cons]
    cases hx : extractHost l with
    | none => simp [vulnerableHosts, hx]
    | some x =>
      by_cases hq : qualifies psl x = true
      · by_cases hxh : x = host
        · subst hxh
          simp [vulnerableHosts, hx, hq]
          omega
        · have hc : List.count host [x] = 0 :=
            List.count_eq_zero.mpr (by simpa using Ne.symm hxh)
          simp [vulnerableHosts, hx, hq, hxh, hc]
      · by_cases hxh : x = host
        · subst hxh
          simp [vulnerableHosts, hx, hq]
        · simp [vulnerableHosts, hx, hq, hxh]

/-- The domain returned by `splitDomain` is a segment of a split on `"."`,
or empty. -/
theorem splitDomain_domain_no_dot (psl : Str → Str) (h : Str) :
    ∃ sub dom tld, splitDomain psl h = some (sub, dom, tld) ∧ '.' ∉ dom := by
  by_cases hne : h = []
  · exact ⟨[], [], [], by simp [splitDomain, hne], by simp⟩
  · by_cases hps : psl h = h
    · rcases list_shape (Split h dot) (Split_ne_nil h) with
        ⟨a, e⟩ | ⟨a, b, e⟩ | ⟨pre, a, b, hpre, e⟩
      · exact ⟨_, _, _, splitDomain_self_one psl h a hne hps e,
          Split_not_mem h a (by rw [e]; simp)⟩
      · exact ⟨_, _, _, splitDomain_self_two psl h a b hne hps e,
          Split_not_mem h a (by rw [e]; simp)⟩
      · exact ⟨_, _, _, splitDomain_self_many psl h pre a b hne hps hpre e,
          Split_not_mem h a (by rw [e]; simp)⟩
    · obtain ⟨init, last, e⟩ :=
        Split_eq_concat (TrimSuffix h (if psl h ≠ [] then dot ++ psl h else []))
      exact ⟨_, _, _, splitDomain_tail psl h init last hne hps e,
        Split_not_mem _ last (by rw [e]; simp)⟩

theorem ReadString_none (r : Str) (h : '\n' ∉ r) : ReadString r '\n' = none := by
  induction r with
  | nil => rfl
  | cons c r ih =>
    have hc : ¬ (c = '\n') := fun e => h (e ▸ List.mem_cons_self _ _)
    have hr : '\n' ∉ r := fun m => h (List.mem_cons_of_mem _ m)
    simp [ReadString, hc, ih hr]

/-- The loop on newline-terminated lines followed by text without a newline:
the text after the last newline is dropped. -/
theorem rdloop_lines_tail (psl : Str → Str) (r : Str) (hr : '\n' ∉ r) :
    ∀ (lines : List Str), (∀ l ∈ lines, IsLine l) →
      ∀ (fuel : Nat) (list : List Str), lines.length < fuel →
        rdloop psl fuel (lines.flatten ++ r) list
          = some (list ++ vulnerableHosts psl lines) := by
  intro lines
  induction lines with
  | nil =>
    intro _ fuel list hfuel
    obtain ⟨n, rfl⟩ : ∃ n, fuel = n + 1 := ⟨fuel - 1, by simp at hfuel; omega⟩
    simp [rdloop, ReadString_none r hr, vulnerableHosts]
  | cons l ls ih =>
    intro hl fuel list hfuel
    obtain ⟨n, rfl⟩ : ∃ n, fuel = n + 1 := ⟨fuel - 1, by simp at hfuel; omega⟩
    obtain ⟨body, rfl, hbody⟩ := IsLine_eq l (hl l (List.mem_cons_self _ _))
    have hrd : ReadString (((body ++ ['\n']) :: ls).flatten ++ r) '\n'
        = some (body ++ ['\n'], ls.flatten ++ r) := by
      have := ReadString_line body (ls.flatten ++ r) hbody
      simpa using this
    rw [rdloop_step psl n _ _ _ list hrd,
      ih (fun x hx => hl x (List.mem_cons_of_mem _ hx)) n _ (by simpa using hfuel),
      List.append_assoc, ← vulnerableHosts_append]
    rfl

/-- A text followed by a newline is a sequence of newline-terminated lines. -/
theorem exists_lines_concat (c : Str) :
    ∃ lines : List Str, (∀ l ∈ lines, IsLine l) ∧ lines.flatten = c ++ ['\n'] := by
  induction c with
  | nil => exact ⟨[['\n']], by decide, rfl⟩
  | cons x t ih =>
    obtain ⟨lines, hl, hf⟩ := ih
    by_cases hx : x = '\n'
    · subst hx
      refine ⟨['\n'] :: lines, ?_, by simp [hf]⟩
      intro l hmem
      rcases List.mem_cons.mp hmem with rfl | hmem
      · decide
      · exact hl l hmem
    · cases lines with
      | nil => simp at hf
      | cons l ls =>
        obtain ⟨body, rfl, hbody⟩ := IsLine_eq l (hl l (List.mem_cons_self _ _))
        refine ⟨(x :: body ++ ['\n']) :: ls, ?_, ?_⟩
        · intro l hmem
          rcases List.mem_cons.mp hmem with rfl | hmem
          · constructor
            · exact List.getLast?_concat _
            · have : (x :: body ++ ['\n']).dropLast = x :: body := List.dropLast_concat
              rw [this]
              intro hm
              rcases List.mem_cons.mp hm with e | hm
              · exact hx e.symm
              · exact hbody hm
          · exact hl l (List.mem_cons_of_mem _ hmem)
        · simp only [List.flatten_cons, List.cons_append] at hf ⊢
          rw [← hf]

/-- A text that is empty or ends with a newline is a sequence of
newline-terminated lines. -/
theorem exists_lines (c : Str) (hc : c = [] ∨ c.getLast? = some '\n') :
    ∃ lines : List Str, (∀ l ∈ lines, IsLine l) ∧ lines.flatten = c := by
  rcases hc with rfl | hc
  · exact ⟨[], by simp, rfl⟩
  · have e := List.dropLast_append_getLast? _ hc
    obtain ⟨lines, hl, hf⟩ := exists_lines_concat c.dropLast
    exact ⟨lines, hl, by rw [hf, e]⟩

/-! ## Lemmas on record lines -/

theorem TrimPrefix_append (pre s : Str) : TrimPrefix (pre ++ s) pre = s := by
  have hp : HasPrefix (pre ++ s) pre = true := by
    simp [HasPrefix]
  simp [TrimPrefix, hp]

theorem Index_commaSpace_first (i w : Str) (hi : ',' ∉ i) :
    Index (i ++ ',' :: ' ' :: w) [',', ' '] = some i.length := by
  induction i with
  | nil => simp [Index, List.isPrefixOf]
  | cons c t ih =>
    have hc : ¬ (',' = c) := fun e => hi (e ▸ List.mem_cons_self _ _)
    have ht : ',' ∉ t := fun m => hi (List.mem_cons_of_mem _ m)
    simp [Index, List.isPrefixOf, hc, ih ht]

theorem Index_commaSpace_none (s : Str) (h : ¬ [',', ' '] <:+: s) :
    Index s [',', ' '] = none := by
  induction s with
  | nil => simp [Index, List.isPrefixOf]
  | cons c t ih =>
    have ht : ¬ [',', ' '] <:+: t := fun hi => h (List.infix_cons_iff.mpr (Or.inr hi))
    have hp : List.isPrefixOf [',', ' '] (c :: t) = false := by
      cases hpb : List.isPrefixOf [',', ' '] (c :: t) with
      | false => rfl
      | true =>
        exact absurd (List.infix_cons_iff.mpr (Or.inl (List.isPrefixOf_iff_prefix.mp hpb))) h
    rw [Index, hp, ih ht]
    rfl

theorem Index_commaSpace_concat_quote (s : Str) (h : Index s [',', ' '] = none) :
    Index (s ++ [quote]) [',', ' '] = none := by
  induction s with
  | nil => decide
  | cons c t ih =>
    rw [Index] at h
    split at h
    · exact absurd h (by simp)
    · rename_i hp
      have ht : Index t [',', ' '] = none := by
        cases hx : Index t [',', ' '] with
        | none => rfl
        | some m => rw [hx] at h; exact absurd h (by simp)
      have hp2 : List.isPrefixOf [',', ' '] (c :: t ++ [quote]) = false := by
        cases t with
        | nil =>
          by_cases hc : ',' = c
          · subst hc; decide
          · simp [List.isPrefixOf, hc]
        | cons d u => simpa [List.isPrefixOf] using hp
      rw [List.cons_append, Index]
      rw [List.cons_append] at hp2
      rw [hp2, ih ht]
      rfl

theorem Index_commaSpace_quoted (h : Str) (hsep : ¬ [',', ' '] <:+: h) :
    Index (quote :: (h ++ [quote])) [',', ' '] = none := by
  have h1 := Index_commaSpace_concat_quote h (Index_commaSpace_none h hsep)
  have hp : List.isPrefixOf [',', ' '] (quote :: (h ++ [quote])) = false := by
    have hq : ¬ (',' = quote) := by decide
    simp [List.isPrefixOf, hq]
  rw [Index, hp, h1]
  rfl

theorem genSplit_of_Index_none (sep s : Str) (n : Nat) (h : Index s sep = none) :
    genSplit sep n s = [s] := by
  cases n with
  | zero => rfl
  | succ n => rw [genSplit, h]

theorem Split_commaSpace_two (i w : Str) (hi : ',' ∉ i)
    (hw : Index w [',', ' '] = none) :
    Split (i ++ ',' :: ' ' :: w) [',', ' '] = [i, w] := by
  unfold Split
  have hlen : (i ++ ',' :: ' ' :: w).length = (i.length + w.length + 1) + 1 := by
    simp only [List.length_append, List.length_cons]
    omega
  rw [hlen, genSplit, Index_commaSpace_first i w hi]
  have hd : List.drop (i.length + [',', ' '].length) (i ++ ',' :: ' ' :: w) = w := by
    rw [List.drop_append]
    rfl
  have ht : List.take i.length (i ++ ',' :: ' ' :: w) = i := by
    simp
  simp only [hd, ht, genSplit_of_Index_none _ _ _ hw]

theorem Trim_quoted (h : Str) (h1 : h.head? ≠ some quote) (h2 : h.getLast? ≠ some quote) :
    Trim (quote :: (h ++ [quote])) [quote] = h := by
  cases h with
  | nil => decide
  | cons c t =>
    have hc : ¬ (c = quote) := fun e => h1 (by simp [e])
    have hq : (decide (quote ∈ [quote])) = true := by decide
    have hcq : (decide (c ∈ [quote])) = false := by simp [hc]
    unfold Trim
    rw [List.dropWhile_cons, if_pos hq, List.cons_append, List.dropWhile_cons, hcq]
    simp only [Bool.false_eq_true, if_false]
    rw [← List.cons_append, List.reverse_append]
    simp only [List.reverse_cons, List.reverse_nil, List.nil_append, List.singleton_append]
    rw [List.dropWhile_cons, if_pos hq]
    cases hr : (t.reverse ++ [c]) with
    | nil => simp at hr
    | cons r rs =>
      have hlast : (c :: t).getLast? = some r := by
        have := List.head?_reverse (c :: t)
        rw [List.reverse_cons, hr] at this
        simpa using this.symm
      have hrq : (decide (r ∈ [quote])) = false := by
        have : ¬ (r = quote) := fun e => h2 (by rw [hlast, e])
        simp [this]
      rw [List.dropWhile_cons, hrq]
      simp only [Bool.false_eq_true, if_false]
      rw [← hr]
      simp

theorem digit_ne (i : Str) (hi : ∀ c ∈ i, c.isDigit = true) :
    ',' ∉ i ∧ '\n' ∉ i := by
  constructor
  · intro hm
    exact absurd (hi ',' hm) (by decide)
  · intro hm
    exact absurd (hi '\n' hm) (by decide)

theorem recordLine_eq (i h : Str) :
    recordLine i h
      = ['[', ' '] ++ ((i ++ ',' :: ' ' :: (quote :: (h ++ [quote]))) ++ [' ', ']', '\n']) := by
  simp [recordLine]

theorem fields_recordLine (i h : Str) (hi : ',' ∉ i) (hsep : ¬ [',', ' '] <:+: h) :
    fields (recordLine i h) = [i, quote :: (h ++ [quote])] := by
  unfold fields
  rw [recordLine_eq, TrimPrefix_append, TrimSuffix_append,
    Split_commaSpace_two i _ hi (Index_commaSpace_quoted h hsep)]

theorem extractHost_recordLine (i h : Str) (hi : ',' ∉ i) (hsep : ¬ [',', ' '] <:+: h)
    (h1 : h.head? ≠ some quote) (h2 : h.getLast? ≠ some quote) :
    extractHost (recordLine i h) = some h := by
  unfold extractHost
  rw [fields_recordLine i h hi hsep]
  exact congrArg some (Trim_quoted h h1 h2)

theorem IsLine_recordLine (i h : Str) (hi : '\n' ∉ i) (hh : '\n' ∉ h) :
    IsLine (recordLine i h) := by
  have e : recordLine i h
      = (['[', ' '] ++ i ++ [',', ' ', quote] ++ h ++ [quote, ' ', ']']) ++ ['\n'] := by
    simp [recordLine]
  rw [e]
  constructor
  · exact List.getLast?_concat _
  · rw [List.dropLast_concat]
    have hq : ¬ ('\n' = quote) := by decide
    simp [hi, hh, hq]

theorem vulnerableHosts_single (psl : Str → Str) (line h : Str)
    (hx : extractHost line = some h) :
    vulnerableHosts psl [line] = if qualifies psl h = true then [h] else [] := by
  by_cases hq : qualifies psl h = true
  · simp [vulnerableHosts, hx, hq]
  · simp [vulnerableHosts, hx, hq]

theorem isVulnerable_iff (label : Str) :
    isVulnerable label = true ↔ ∀ ch ∈ label, ch ∈ alphabet := by
  induction label with
  | nil => simp [isVulnerable]
  | cons ch rest ih =>
    by_cases hch : ch ∈ alphabet
    · simp [isVulnerable, hch, ih]
    · simp [isVulnerable, hch]

/-- One iteration of `rdloop` on a line whose extracted host is `h`. -/
theorem rdloop_step_host (psl : Str → Str) (line h sub dom tld : Str)
    (hx : extractHost line = some h) (hd : splitDomain psl h = some (sub, dom, tld))
    (fuel : Nat) (br rest : Str) (list : List Str)
    (hr : ReadString br '\n' = some (line, rest)) :
    rdloop psl (fuel + 1) br list
      = rdloop psl fuel rest (if ∀ ch ∈ dom, ch ∈ alphabet then list ++ [h] else list) := by
  rw [rdloop_step psl fuel br line rest list hr, vulnerableHosts_single psl line h hx]
  have hq : qualifies psl h = isVulnerable dom := by simp [qualifies, hd]
  rw [hq]
  by_cases hv : isVulnerable dom = true
  · rw [if_pos hv, if_pos ((isVulnerable_iff dom).mp hv)]
  · rw [if_neg hv, if_neg (fun hall => hv ((isVulnerable_iff dom).mpr hall)), List.append_nil]

/-- The scan of a single newline-terminated line whose extracted host is `h`. -/
theorem scan_single_host (psl : Str → Str) (line h sub dom tld : Str)
    (hl : IsLine line) (hx : extractHost line = some h)
    (hd : splitDomain psl h = some (sub, dom, tld)) :
    scan psl line = some (if ∀ ch ∈ dom, ch ∈ alphabet then [h] else []) := by
  have hs := scan_lines psl [line] (by simpa using hl)
  simp only [List.flatten_cons, List.flatten_nil, List.append_nil] at hs
  rw [hs, vulnerableHosts_single psl line h hx]
  have hq : qualifies psl h = isVulnerable dom := by simp [qualifies, hd]
  rw [hq]
  by_cases hv : isVulnerable dom = true
  · rw [if_pos hv, if_pos ((isVulnerable_iff dom).mp hv)]
  · rw [if_neg hv, if_neg (fun hall => hv ((isVulnerable_iff dom).mpr hall))]

/-! ## The domain splitter -/

/-- C1, as stated, fails: for the host `sub.example.co.uk` with the lookup
answering `co.uk`, every hypothesis of the claim holds, and `splitDomain`
returns the suffix with a leading dot, `.co.uk`, not `co.uk`. -/
theorem splitDomain_sub_example_co_uk :
    "sub".toList ≠ [] ∧ "example".toList ≠ [] ∧ '.' ∉ "example".toList ∧
    "co.uk".toList ≠ [] ∧
    "sub.example.co.uk".toList
      = "sub".toList ++ dot ++ "example".toList ++ dot ++ "co.uk".toList ∧
    splitDomain (fun _ => "co.uk".toList) "sub.example.co.uk".toList
      = some ("sub".toList, "example".toList, ".co.uk".toList) ∧
    splitDomain (fun _ => "co.uk".toList) "sub.example.co.uk".toList
      ≠ some ("sub".toList, "example".toList, "co.uk".toList) := by
  decide

/-- C1, amended: for a hostname `s ++ "." ++ d ++ "." ++ ps` with `d` a
non-empty label without a dot, `s` non-empty and the lookup answering the
non-empty `ps`, `splitDomain` returns `(s, d, "." ++ ps)`. -/
theorem splitDomain_three_parts (psl : Str → Str) (s d ps : Str)
    (_hs : s ≠ []) (_hd : d ≠ []) (hdot : '.' ∉ d) (hps : ps ≠ [])
    (hpsl : psl (s ++ dot ++ d ++ dot ++ ps) = ps) :
    splitDomain psl (s ++ dot ++ d ++ dot ++ ps) = some (s, d, dot ++ ps) := by
  have hne : s ++ dot ++ d ++ dot ++ ps ≠ [] := by
    simp [dot]
  have hneq : psl (s ++ dot ++ d ++ dot ++ ps) ≠ s ++ dot ++ d ++ dot ++ ps := by
    rw [hpsl]
    intro e
    have := congrArg List.length e
    simp only [dot, List.length_append, List.length_cons, List.length_nil] at this
    omega
  have htld : (if psl (s ++ dot ++ d ++ dot ++ ps) ≠ [] then
      dot ++ psl (s ++ dot ++ d ++ dot ++ ps) else []) = dot ++ ps := by
    rw [hpsl, if_pos hps]
  have hseg : Split (TrimSuffix (s ++ dot ++ d ++ dot ++ ps)
      (if psl (s ++ dot ++ d ++ dot ++ ps) ≠ [] then
        dot ++ psl (s ++ dot ++ d ++ dot ++ ps) else [])) dot = Split s dot ++ [d] := by
    rw [htld]
    have e : s ++ dot ++ d ++ dot ++ ps = (s ++ '.' :: d) ++ (dot ++ ps) := by
      simp [dot]
    rw [e, TrimSuffix_append, Split_append_dot, Split_no_dot d hdot]
  have := splitDomain_tail psl _ (Split s dot) d hne hneq hseg
  rw [this, htld, Join_Split]

/-- Witness of C1 (amended): `sub.example.co.uk` with the lookup answering
`co.uk`. -/
theorem splitDomain_three_parts_witness :
    splitDomain (fun _ => "co.uk".toList)
        ("sub".toList ++ dot ++ "example".toList ++ dot ++ "co.uk".toList)
      = some ("sub".toList, "example".toList, dot ++ "co.uk".toList) :=
  splitDomain_three_parts (fun _ => "co.uk".toList) "sub".toList "example".toList
    "co.uk".toList (by decide) (by decide) (by decide) (by decide) rfl

/-- C2: for a non-empty hostname, when the lookup answers a non-empty string
other than the hostname itself (Case B) the returned tld is `"." ++ ps`, with
a leading dot; when the lookup answers the hostname itself (Case A) the
returned tld does not start with a dot. -/
theorem splitDomain_tld_leading_dot (psl : Str → Str) (h : Str) (hne : h ≠ []) :
    (psl h ≠ [] → psl h ≠ h →
      ∃ sub dom, splitDomain psl h = some (sub, dom, '.' :: psl h)) ∧
    (psl h = h →
      ∃ sub dom tld, splitDomain psl h = some (sub, dom, tld) ∧ tld.head? ≠ some '.') := by
  constructor
  · intro hps hneq
    obtain ⟨init, last, e⟩ :=
      Split_eq_concat (TrimSuffix h (if psl h ≠ [] then dot ++ psl h else []))
    refine ⟨Join init dot, last, ?_⟩
    rw [splitDomain_tail psl h init last hne hneq e, if_pos hps]
    rfl
  · intro hps
    rcases list_shape (Split h dot) (Split_ne_nil h) with
      ⟨a, e⟩ | ⟨a, b, e⟩ | ⟨pre, a, b, hpre, e⟩
    · exact ⟨_, _, _, splitDomain_self_one psl h a hne hps e, by simp⟩
    · refine ⟨_, _, _, splitDomain_self_two psl h a b hne hps e, ?_⟩
      have hb : '.' ∉ b := Split_not_mem h b (by rw [e]; simp)
      intro hh
      exact hb (List.mem_of_mem_head? hh)
    · refine ⟨_, _, _, splitDomain_self_many psl h pre a b hne hps hpre e, ?_⟩
      have hb : '.' ∉ b := Split_not_mem h b (by rw [e]; simp)
      intro hh
      exact hb (List.mem_of_mem_head? hh)

/-- Witness of C2: `example.com` with the lookup answering `com` (Case B). -/
theorem splitDomain_tld_leading_dot_witness :
    "example.com".toList ≠ [] ∧
    ∃ sub dom, splitDomain (fun _ => "com".toList) "example.com".toList
      = some (sub, dom, ".com".toList) :=
  ⟨by decide,
    (splitDomain_tld_leading_dot (fun _ => "com".toList) "example.com".toList (by decide)).1
      (by decide) (by decide)⟩

/-- C3: Case A.  For a non-empty hostname that the lookup answers with the
hostname itself, with the labels obtained by splitting on `"."`: one label
`l1` gives `("", l1, "")`; two labels give `("", l1, l2)`; three or more give
the last two as domain and tld and the preceding ones, joined with `"."`, as
subdomain.  Concretely `co.uk` gives `("", "co", "uk")`. -/
theorem splitDomain_public_suffix_itself (psl : Str → Str) (h : Str)
    (hne : h ≠ []) (hps : psl h = h) :
    (∀ l1, Split h dot = [l1] → splitDomain psl h = some ([], l1, [])) ∧
    (∀ l1 l2, Split h dot = [l1, l2] → splitDomain psl h = some ([], l1, l2)) ∧
    (∀ pre a b, pre ≠ [] → Split h dot = pre ++ [a, b] →
      splitDomain psl h = some (Join pre dot, a, b)) ∧
    splitDomain (fun _ => "co.uk".toList) "co.uk".toList
      = some ([], "co".toList, "uk".toList) :=
  ⟨fun l1 e => splitDomain_self_one psl h l1 hne hps e,
   fun l1 l2 e => splitDomain_self_two psl h l1 l2 hne hps e,
   fun pre a b hpre e => splitDomain_self_many psl h pre a b hne hps hpre e,
   by decide⟩

/-- Witness of C3: `a.b.co.uk` answered by itself has four labels. -/
theorem splitDomain_public_suffix_itself_witness :
    "a.b.co.uk".toList ≠ [] ∧
    Split "a.b.co.uk".toList dot = ["a".toList, "b".toList] ++ ["co".toList, "uk".toList] ∧
    splitDomain (fun x => x) "a.b.co.uk".toList
      = some (Join ["a".toList, "b".toList] dot, "co".toList, "uk".toList) :=
  ⟨by decide, by decide,
    (splitDomain_public_suffix_itself (fun x => x) "a.b.co.uk".toList (by decide) rfl).2.2.1
      ["a".toList, "b".toList] "co".toList "uk".toList (by decide) (by decide)⟩

/-- C5: for a hostname without an empty label (the empty hostname, or one
whose labels are all non-empty) and a lookup answer that is empty or a
whole-label suffix of the hostname, the result of `splitDomain` reassembles
to the hostname. -/
theorem splitDomain_reassemble (psl : Str → Str) (h : Str)
    (hlabels : h = [] ∨ ∀ l ∈ Split h dot, l ≠ [])
    (hans : psl h = [] ∨ WholeLabelSuffix (psl h) h) :
    ∃ r, splitDomain psl h = some r ∧ reassemble r = h := by
  by_cases hne : h = []
  · subst hne
    exact ⟨([], [], []), rfl, by decide⟩
  have hlab : ∀ l ∈ Split h dot, l ≠ [] := hlabels.resolve_left hne
  have hjoin := Join_Split h
  by_cases hps : psl h = h
  · rcases list_shape (Split h dot) (Split_ne_nil h) with
      ⟨a, e⟩ | ⟨a, b, e⟩ | ⟨pre, a, b, hpre, e⟩
    · refine ⟨_, splitDomain_self_one psl h a hne hps e, ?_⟩
      have ha : a ≠ [] := hlab a (by rw [e]; simp)
      have := reassemble_labels [] a [] [] (by simp) ha
        (TrimPrefix_dot_of_not_mem [] (by simp))
      rw [Join_nil] at this
      rw [this, if_pos rfl, ← hjoin, e]
      rfl
    · refine ⟨_, splitDomain_self_two psl h a b hne hps e, ?_⟩
      have ha : a ≠ [] := hlab a (by rw [e]; simp)
      have hb : b ≠ [] := hlab b (by rw [e]; simp)
      have hbd : '.' ∉ b := Split_not_mem h b (by rw [e]; simp)
      have := reassemble_labels [] a b b (by simp) ha (TrimPrefix_dot_of_not_mem b hbd)
      rw [Join_nil] at this
      rw [this, if_neg hb, ← Join_append_single _ _ (by simp), ← hjoin, e]
      rfl
    · refine ⟨_, splitDomain_self_many psl h pre a b hne hps hpre e, ?_⟩
      have ha : a ≠ [] := hlab a (by rw [e]; simp)
      have hb : b ≠ [] := hlab b (by rw [e]; simp)
      have hbd : '.' ∉ b := Split_not_mem h b (by rw [e]; simp)
      have hp : ∀ l ∈ pre, l ≠ [] := fun l hl => hlab l (by rw [e]; simp [hl])
      rw [reassemble_labels pre a b b hp ha (TrimPrefix_dot_of_not_mem b hbd), if_neg hb,
        ← Join_append_single _ _ (by simp), ← hjoin, e]
      simp
  · by_cases hp0 : psl h = []
    · have htld : (if psl h ≠ [] then dot ++ psl h else []) = [] := by simp [hp0]
      obtain ⟨init, last, e⟩ := Split_eq_concat h
      have hseg : Split (TrimSuffix h (if psl h ≠ [] then dot ++ psl h else [])) dot
          = init ++ [last] := by rw [htld, TrimSuffix_nil, e]
      refine ⟨_, splitDomain_tail psl h init last hne hps hseg, ?_⟩
      have hl : last ≠ [] := hlab last (by rw [e]; simp)
      have hi : ∀ l ∈ init, l ≠ [] := fun l hl => hlab l (by rw [e]; simp [hl])
      rw [htld, reassemble_labels init last [] [] hi hl
        (TrimPrefix_dot_of_not_mem [] (by simp)), if_pos rfl, ← e, hjoin]
    · have hsuf : ('.' :: psl h) <:+ h := by
        rcases hans with h0 | h1 | h2
        · exact absurd h0 hp0
        · exact absurd h1 hps
        · exact h2
      obtain ⟨x, hx⟩ := hsuf
      have htld : (if psl h ≠ [] then dot ++ psl h else []) = '.' :: psl h := by
        simp [hp0, dot]
      obtain ⟨init, last, e⟩ := Split_eq_concat x
      have hseg : Split (TrimSuffix h (if psl h ≠ [] then dot ++ psl h else [])) dot
          = init ++ [last] := by
        have key := TrimSuffix_append x ('.' :: psl h)
        rw [hx] at key
        rw [htld, key, e]
      have hall : Split h dot = init ++ [last] ++ Split (psl h) dot := by
        have key := Split_append_dot x (psl h)
        rw [hx] at key
        rw [key, e]
      refine ⟨_, splitDomain_tail psl h init last hne hps hseg, ?_⟩
      have hl : last ≠ [] := hlab last (by rw [hall]; simp)
      have hi : ∀ l ∈ init, l ≠ [] := fun l hl => hlab l (by rw [hall]; simp [hl])
      rw [htld, reassemble_labels init last ('.' :: psl h) (psl h) hi hl
        (TrimPrefix_dot_cons (psl h)), if_neg hp0, ← e, Join_Split, hx]

/-- Witness of C5: `www.example.co.uk` with the lookup answering `co.uk`. -/
theorem splitDomain_reassemble_witness :
    ∃ r, splitDomain (fun _ => "co.uk".toList) "www.example.co.uk".toList = some r ∧
      reassemble r = "www.example.co.uk".toList :=
  splitDomain_reassemble (fun _ => "co.uk".toList) "www.example.co.uk".toList
    (Or.inr (by decide)) (by decide)

/-- C6: for a hostname without a dot and a lookup answer that is empty or a
whole-label suffix of the hostname but not the hostname itself, `splitDomain`
returns `("", h, "")`. -/
theorem splitDomain_no_dot (psl : Str → Str) (h : Str) (hdot : '.' ∉ h)
    (hans : psl h = [] ∨ WholeLabelSuffix (psl h) h) (hself : psl h ≠ h) :
    splitDomain psl h = some ([], h, []) := by
  by_cases hne : h = []
  · subst hne
    simp [splitDomain]
  · have hp0 : psl h = [] := by
      rcases hans with h0 | h1 | ⟨x, hx⟩
      · exact h0
      · exact absurd h1 hself
      · exact absurd (by rw [← hx]; simp) hdot
    have htld : (if psl h ≠ [] then dot ++ psl h else []) = [] := by simp [hp0]
    have hseg : Split (TrimSuffix h (if psl h ≠ [] then dot ++ psl h else [])) dot
        = [] ++ [h] := by
      rw [htld, TrimSuffix_nil, Split_no_dot h hdot]
      rfl
    rw [splitDomain_tail psl h [] h hne hself hseg, htld]
    rfl

/-- Witness of C6: `localhost` with the lookup answering the empty string. -/
theorem splitDomain_no_dot_witness :
    splitDomain (fun _ => []) "localhost".toList = some ([], "localhost".toList, []) :=
  splitDomain_no_dot (fun _ => []) "localhost".toList (by decide) (by decide) (by decide)

/-- C7: Case C.  For a non-empty hostname for which the lookup answers the
empty string, the tld is empty, the domain is the last label of the hostname
split on `"."`, and the subdomain is the preceding labels joined with `"."`,
which is the empty string when there is a single label. -/
theorem splitDomain_no_suffix (psl : Str → Str) (h : Str)
    (hne : h ≠ []) (hps : psl h = []) :
    ∃ sub dom, splitDomain psl h = some (sub, dom, []) ∧
      (Split h dot).getLast? = some dom ∧
      sub = Join (Split h dot).dropLast dot ∧
      ((Split h dot).length = 1 → sub = []) := by
  have hself : psl h ≠ h := by rw [hps]; exact fun e => hne e.symm
  have htld : (if psl h ≠ [] then dot ++ psl h else []) = [] := by simp [hps]
  obtain ⟨init, last, e⟩ := Split_eq_concat h
  have hseg : Split (TrimSuffix h (if psl h ≠ [] then dot ++ psl h else [])) dot
      = init ++ [last] := by rw [htld, TrimSuffix_nil, e]
  refine ⟨Join init dot, last, ?_, ?_, ?_, ?_⟩
  · rw [splitDomain_tail psl h init last hne hself hseg, htld]
  · rw [e]; simp
  · rw [e]; simp
  · intro hlen
    rw [e] at hlen
    have : init = [] := by
      simpa using hlen
    rw [this]
    rfl

/-- Witness of C7: `a.b.local` with the lookup answering the empty string. -/
theorem splitDomain_no_suffix_witness :
    ∃ sub dom, splitDomain (fun _ => []) "a.b.local".toList = some (sub, dom, []) ∧
      (Split "a.b.local".toList dot).getLast? = some dom ∧
      sub = Join (Split "a.b.local".toList dot).dropLast dot ∧
      ((Split "a.b.local".toList dot).length = 1 → sub = []) :=
  splitDomain_no_suffix (fun _ => []) "a.b.local".toList (by decide) rfl

/-- C8: for the empty hostname `splitDomain` returns the all-empty triple,
whatever the lookup answers. -/
theorem splitDomain_empty :
    (∀ psl : Str → Str, splitDomain psl [] = some ([], [], [])) ∧
    (∀ psl1 psl2 : Str → Str, splitDomain psl1 [] = splitDomain psl2 []) :=
  ⟨fun _ => rfl, fun _ _ => rfl⟩

/-! ## The vulnerability filter -/

/-- C4: the test applied to a domain label is true exactly when every
character of the label is in the alphabet; the alphabet is exactly the 13
characters `a p l e c x s y j i h o -`; `apple` passes, `google` does not,
the empty label passes. -/
theorem isVulnerable_iff_all_in_alphabet (label : Str) :
    (isVulnerable label = true ↔ ∀ ch ∈ label, ch ∈ alphabet) ∧
    (∀ ch : Char, ch ∈ alphabet ↔
      ch = 'a' ∨ ch = 'p' ∨ ch = 'l' ∨ ch = 'e' ∨ ch = 'c' ∨ ch = 'x' ∨ ch = 's' ∨
      ch = 'y' ∨ ch = 'j' ∨ ch = 'i' ∨ ch = 'h' ∨ ch = 'o' ∨ ch = '-') ∧
    alphabet.length = 13 ∧ alphabet.Nodup ∧
    isVulnerable "apple".toList = true ∧
    isVulnerable "google".toList = false ∧
    isVulnerable [] = true := by
  refine ⟨?_, ?_, rfl, by decide, by decide, by decide, rfl⟩
  · induction label with
    | nil => simp [isVulnerable]
    | cons ch rest ih =>
      by_cases hch : ch ∈ alphabet
      · simp [isVulnerable, hch, ih]
      · simp [isVulnerable, hch]
  · intro ch
    simp [alphabet]

/-! ## The scan loop -/

/-- C9: for every sequence of newline-terminated lines, the list built by the
scan loop is the sequence, in input order and with duplicates kept, of the
hosts of the lines that parse into two fields and whose domain label passes
the alphabet test; it is a subsequence of the extracted hosts, and a host
occurs in it as many times as there are qualifying lines with that host. -/
theorem scan_eq_vulnerableHosts (psl : Str → Str) (lines : List Str)
    (h : ∀ l ∈ lines, IsLine l) :
    scan psl lines.flatten = some (vulnerableHosts psl lines) ∧
    (vulnerableHosts psl lines).Sublist (lines.filterMap extractHost) ∧
    ∀ host, (vulnerableHosts psl lines).count host
      = (lines.filter
          (fun l => decide (extractHost l = some host) && qualifies psl host)).length :=
  ⟨scan_lines psl lines h, List.filter_sublist _,
    fun host => count_vulnerableHosts psl host lines⟩

/-- Witness of C9: four lines, one malformed, one with a host outside the
alphabet, and the host `apple.com` twice. -/
theorem scan_eq_vulnerableHosts_witness :
    scan (fun _ => "com".toList)
        ["[ 0, 'apple.com' ]\n".toList, "junk\n".toList, "[ 1, 'google.com' ]\n".toList,
          "[ 2, 'apple.com' ]\n".toList].flatten
      = some ["apple.com".toList, "apple.com".toList] :=
  (scan_eq_vulnerableHosts (fun _ => "com".toList)
    ["[ 0, 'apple.com' ]\n".toList, "junk\n".toList, "[ 1, 'google.com' ]\n".toList,
      "[ 2, 'apple.com' ]\n".toList] (by decide)).1.trans (by decide)

/-- C10: a malformed line is skipped.  For newline-terminated lines `L1`, `L2`
and a newline-terminated line `m` that does not parse into exactly two
fields, the scan of `L1 ++ [m] ++ L2` produces the same list as the scan of
`L1 ++ L2`. -/
theorem scan_skips_malformed_line (psl : Str → Str) (L1 L2 : List Str) (m : Str)
    (h1 : ∀ l ∈ L1, IsLine l) (h2 : ∀ l ∈ L2, IsLine l) (hm : IsLine m)
    (hbad : (fields m).length ≠ 2) :
    scan psl (L1 ++ [m] ++ L2).flatten = scan psl (L1 ++ L2).flatten ∧
    ∃ list, scan psl (L1 ++ L2).flatten = some list := by
  have h12 : ∀ l ∈ L1 ++ L2, IsLine l := by
    intro l hl
    rcases List.mem_append.mp hl with hl | hl
    · exact h1 l hl
    · exact h2 l hl
  have h1m2 : ∀ l ∈ L1 ++ [m] ++ L2, IsLine l := by
    intro l hl
    rcases List.mem_append.mp hl with hl | hl
    · rcases List.mem_append.mp hl with hl | hl
      · exact h1 l hl
      · rw [List.mem_singleton.mp hl]; exact hm
    · exact h2 l hl
  have hm0 : vulnerableHosts psl [m] = [] := by
    simp [vulnerableHosts, extractHost_of_length_ne m hbad]
  refine ⟨?_, _, scan_lines psl _ h12⟩
  rw [scan_lines psl _ h12, scan_lines psl _ h1m2, vulnerableHosts_append,
    vulnerableHosts_append, vulnerableHosts_append, hm0, List.append_nil]

/-- Witness of C10: a line with three fields between two well-formed lines. -/
theorem scan_skips_malformed_line_witness :
    scan (fun _ => "com".toList)
        (["[ 0, 'apple.com' ]\n".toList] ++ ["[ 1, 'a', 'b' ]\n".toList]
          ++ ["[ 2, 'chess.com' ]\n".toList]).flatten
      = scan (fun _ => "com".toList)
        (["[ 0, 'apple.com' ]\n".toList] ++ ["[ 2, 'chess.com' ]\n".toList]).flatten :=
  (scan_skips_malformed_line (fun _ => "com".toList) ["[ 0, 'apple.com' ]\n".toList]
    ["[ 2, 'chess.com' ]\n".toList] "[ 1, 'a', 'b' ]\n".toList
    (by decide) (by decide) (by decide) (by decide)).1

/-! ## Totality and shape of the split -/

/-- C12: `splitDomain` is total: for every hostname and every answer of the
lookup it returns a triple; none of the index and slice expressions on
`segments` is out of range, the split having at least one segment. -/
theorem splitDomain_total (psl : Str → Str) (domainName : Str) :
    (∃ r, splitDomain psl domainName = some r) ∧
    ∀ s : Str, 1 ≤ (Split s dot).length :=
  ⟨splitDomain_some psl domainName,
    fun s => List.length_pos.mpr (Split_ne_nil s)⟩

/-- C14: for every hostname and every answer of the lookup, also one that is
not a suffix of the hostname, the domain returned by `splitDomain` contains
no `"."`. -/
theorem splitDomain_domain_single_label (psl : Str → Str) (domainName : Str) :
    ∃ sub dom tld, splitDomain psl domainName = some (sub, dom, tld) ∧ '.' ∉ dom :=
  splitDomain_domain_no_dot psl domainName

/-! ## Record lines -/

/-- C11: for a decimal index `i` and a hostname `h` that contains no `", "`
and neither starts nor ends with a single quote, the record line
`"[ " ++ i ++ ", '" ++ h ++ "' ]\n"` splits into the two fields `i` and
`'h'`, the host extracted is `h` itself, and the loop appends `h` to the list
exactly when every character of the domain label of `splitDomain h` is in
the alphabet.  With the lookup answering `com`, the line of `apple-pay.com`
has the domain `apple-pay` and is included; the line of `google.com` has the
domain `google` and is excluded. -/
theorem recordLine_host (psl : Str → Str) (i h : Str)
    (hi : ∀ c ∈ i, c.isDigit = true) (hsep : ¬ [',', ' '] <:+: h)
    (h1 : h.head? ≠ some quote) (h2 : h.getLast? ≠ some quote) :
    (fields (recordLine i h) = [i, quote :: (h ++ [quote])] ∧
      Trim (quote :: (h ++ [quote])) [quote] = h ∧
      extractHost (recordLine i h) = some h) ∧
    (∃ sub dom tld, splitDomain psl h = some (sub, dom, tld) ∧
      (∀ (fuel : Nat) (br rest : Str) (list : List Str),
        ReadString br '\n' = some (recordLine i h, rest) →
        rdloop psl (fuel + 1) br list
          = rdloop psl fuel rest
              (if ∀ ch ∈ dom, ch ∈ alphabet then list ++ [h] else list)) ∧
      ('\n' ∉ h →
        scan psl (recordLine i h)
          = some (if ∀ ch ∈ dom, ch ∈ alphabet then [h] else []))) ∧
    (splitDomain (fun _ => "com".toList) "apple-pay.com".toList
        = some ([], "apple-pay".toList, ".com".toList) ∧
      scan (fun _ => "com".toList) "[ 0, 'apple-pay.com' ]\n".toList
        = some ["apple-pay.com".toList]) ∧
    (splitDomain (fun _ => "com".toList) "google.com".toList
        = some ([], "google".toList, ".com".toList) ∧
      scan (fun _ => "com".toList) "[ 0, 'google.com' ]\n".toList = some []) := by
  have hd := digit_ne i hi
  have hx := extractHost_recordLine i h hd.1 hsep h1 h2
  refine ⟨⟨fields_recordLine i h hd.1 hsep, Trim_quoted h h1 h2, hx⟩, ?_,
    ⟨by decide, by decide⟩, ⟨by decide, by decide⟩⟩
  obtain ⟨⟨sub, dom, tld⟩, hs⟩ := splitDomain_some psl h
  refine ⟨sub, dom, tld, hs, ?_, ?_⟩
  · intro fuel br rest list hr
    exact rdloop_step_host psl _ h sub dom tld hx hs fuel br rest list hr
  · intro hn
    exact scan_single_host psl _ h sub dom tld (IsLine_recordLine i h hd.2 hn) hx hs

/-- Witness of C11: the record line of index `12` and host `chess.com`, with
the lookup answering `com`, is parsed to the host `chess.com`. -/
theorem recordLine_host_witness :
    recordLine "12".toList "chess.com".toList = "[ 12, 'chess.com' ]\n".toList ∧
    fields (recordLine "12".toList "chess.com".toList)
      = ["12".toList, "'chess.com'".toList] ∧
    extractHost (recordLine "12".toList "chess.com".toList) = some "chess.com".toList :=
  ⟨by decide,
    (recordLine_host (fun _ => "com".toList) "12".toList "chess.com".toList
      (by decide) (by decide) (by decide) (by decide)).1.1,
    (recordLine_host (fun _ => "com".toList) "12".toList "chess.com".toList
      (by decide) (by decide) (by decide) (by decide)).1.2.2⟩

/-- C13: a host whose domain label is empty is reported.  For every line that
parses into two fields and whose extracted host `h` has an empty domain label,
the loop appends `h` to the list; so for `h = ""`, and for `h = ".com"` with
the lookup answering `com`. -/
theorem scan_reports_empty_domain (psl : Str → Str) (line h sub tld : Str)
    (hx : extractHost line = some h) (hd : splitDomain psl h = some (sub, [], tld)) :
    (∀ (fuel : Nat) (br rest : Str) (list : List Str),
      ReadString br '\n' = some (line, rest) →
      rdloop psl (fuel + 1) br list = rdloop psl fuel rest (list ++ [h])) ∧
    (IsLine line → scan psl line = some [h]) ∧
    (∀ L1 L2 : List Str, (∀ l ∈ L1, IsLine l) → (∀ l ∈ L2, IsLine l) → IsLine line →
      scan psl (L1 ++ [line] ++ L2).flatten
        = some (vulnerableHosts psl L1 ++ h :: vulnerableHosts psl L2)) ∧
    (splitDomain (fun _ => "com".toList) ".com".toList = some ([], [], ".com".toList) ∧
      scan (fun _ => "com".toList) "[ 0, '.com' ]\n".toList = some [".com".toList] ∧
      scan (fun _ => "com".toList) "[ 0, '' ]\n".toList = some [[]]) := by
  have hq : qualifies psl h = true := by simp [qualifies, hd, isVulnerable]
  have hv : vulnerableHosts psl [line] = [h] := by
    rw [vulnerableHosts_single psl line h hx, if_pos hq]
  refine ⟨?_, ?_, ?_, by decide, by decide, by decide⟩
  · intro fuel br rest list hr
    rw [rdloop_step psl fuel br line rest list hr, hv]
  · intro hl
    have hs := scan_lines psl [line] (by simpa using hl)
    simpa [hv] using hs
  · intro L1 L2 hl1 hl2 hl
    have hall : ∀ l ∈ L1 ++ [line] ++ L2, IsLine l := by
      intro l hmem
      rcases List.mem_append.mp hmem with hmem | hmem
      · rcases List.mem_append.mp hmem with hmem | hmem
        · exact hl1 l hmem
        · rw [List.mem_singleton.mp hmem]; exact hl
      · exact hl2 l hmem
    rw [scan_lines psl _ hall, vulnerableHosts_append, vulnerableHosts_append, hv]
    simp

/-- Witness of C13: the record of the host `.co.uk`, with the lookup answering
`co.uk`, has an empty domain label and is reported. -/
theorem scan_reports_empty_domain_witness :
    extractHost "[ 3, '.co.uk' ]\n".toList = some ".co.uk".toList ∧
    splitDomain (fun _ => "co.uk".toList) ".co.uk".toList = some ([], [], ".co.uk".toList) ∧
    scan (fun _ => "co.uk".toList) "[ 3, '.co.uk' ]\n".toList = some [".co.uk".toList] :=
  ⟨by decide, by decide,
    (scan_reports_empty_domain (fun _ => "co.uk".toList) "[ 3, '.co.uk' ]\n".toList
      ".co.uk".toList [] ".co.uk".toList (by decide) (by decide)).2.1 (by decide)⟩

/-! ## The end of the input -/

/-- C15: text after the last newline of the input is never scanned.  For a
content `c` that is empty or ends with a newline and a text `r` without a
newline, the scan of `c ++ r` produces the same list as the scan of `c`. -/
theorem scan_drops_unterminated_tail (psl : Str → Str) (c r : Str)
    (hc : c = [] ∨ c.getLast? = some '\n') (hr : '\n' ∉ r) :
    scan psl (c ++ r) = scan psl c ∧ ∃ list, scan psl c = some list := by
  obtain ⟨lines, hl, rfl⟩ := exists_lines c hc
  have hlen := length_le_flatten lines hl
  have h1 := rdloop_lines_tail psl r hr lines hl ((lines.flatten ++ r).length + 1) []
    (by simp only [List.length_append]; omega)
  have h2 := scan_lines psl lines hl
  refine ⟨?_, _, h2⟩
  rw [h2]
  simpa [scan] using h1

/-- Witness of C15: the unterminated last record names a host whose domain
label, `apple`, is entirely in the alphabet, and is not reported. -/
theorem scan_drops_unterminated_tail_witness :
    scan (fun _ => "com".toList) ("[ 0, 'chess.com' ]\n".toList ++ "[ 1, 'apple.com' ]".toList)
      = some ["chess.com".toList] ∧
    scan (fun _ => "com".toList) ("[ 1, 'apple.com' ]\n".toList)
      = some ["apple.com".toList] :=
  ⟨((scan_drops_unterminated_tail (fun _ => "com".toList) "[ 0, 'chess.com' ]\n".toList
      "[ 1, 'apple.com' ]".toList (by decide) (by decide)).1).trans (by decide),
    by decide⟩

end PunycodeAttack

